import Mathlib

/-
Shallow embedding of src/graph.js: a small in-memory graph utility.
Nodes are plain JavaScript records; parent/child relation lists are stored
directly on the node records under configurable key names.  Node records
live on a heap indexed by node id (JavaScript object references become ids;
strict equality between node references becomes id equality).
-/

/-- JavaScript primitive values that appear in node fields. -/
inductive Prim where
  | undef
  | int (i : Int)
  | str (s : String)
  | bool (b : Bool)
deriving DecidableEq

/-- A field value: a primitive, or an array of node references (node ids). -/
inductive Value where
  | prim (p : Prim)
  | arr (ids : List Nat)
deriving DecidableEq

/-- A JavaScript object: ordered association of field names to values.
Reading an absent field yields undefined; assignment to an existing field
updates it in place, otherwise appends it. -/
def JSObj : Type := List (String × Value)

instance : DecidableEq JSObj := by
  unfold JSObj
  infer_instance

/-- Property read `o[k]`: the first binding of k, or undefined if absent. -/
def getField : JSObj → String → Value
  | [], _ => Value.prim Prim.undef
  | (k', v') :: rest, k => if k' = k then v' else getField rest k

/-- Property write `o[k] = v`: updates the existing binding in place,
appends a new binding otherwise (JavaScript key-order semantics). -/
def setField : JSObj → String → Value → JSObj
  | [], k, v => [(k, v)]
  | (k', v') :: rest, k, v =>
    if k' = k then (k, v) :: rest else (k', v') :: setField rest k v

/-- `Object.keys(o)`: the field names in order. -/
def objKeys (o : JSObj) : List String := o.map Prod.fst

/-- The heap: every node id maps to its current record. -/
def Heap : Type := Nat → JSObj

/-- In-place mutation of one node record. -/
def updateHeap (h : Heap) (n : Nat) (o : JSObj) : Heap :=
  fun m => if m = n then o else h m

/-- Whether a value is an array.  Relation lists are meant to be arrays:
`.filter` and `.splice` exist only on arrays, so the queries and `remove`
raise a TypeError on any other field value (a missing field reads as
undefined); `.concat` additionally exists on strings (see `add`). -/
def isArray : Value → Bool
  | Value.arr _ => true
  | _ => false

/-- Whether a value is a string. -/
def isString : Value → Bool
  | Value.prim (Prim.str _) => true
  | _ => false

/-- Whether `.concat` can be called on the value: JavaScript has
Array.prototype.concat and String.prototype.concat; every other value -
in particular the undefined read of a missing field - raises a TypeError
when `.concat` is indexed on it. -/
def canConcat (v : Value) : Bool := isArray v || isString v

/-- The relation-list ids stored on node n under key rel ([] if the field
is absent or not an array). -/
def idsOf (h : Heap) (rel : String) (n : Nat) : List Nat :=
  match getField (h n) rel with
  | Value.arr l => l
  | _ => []

/-- JavaScript strict equality on field values.  Primitives compare by
value.  Two array values are distinct objects in every configuration the
claims exercise (a filter record never aliases a node's own relation
array), so array-array comparison is reference inequality, i.e. false. -/
def jsEq : Value → Value → Bool
  | Value.prim a, Value.prim b => decide (a = b)
  | _, _ => false

/-
StructuralMatcher (resembles).  The source walks an index `key` from 0,
comparing `self[keys[key]] === obj[keys[key]]`, increments on success and
keeps going while `key <= len`.  So the comparisons happen at indices
0, 1, ..., len: one extra comparison past the last key, where `keys[key]`
is undefined and the property read coerces it to the key "undefined".
`List.getD k "undefined"` reproduces exactly that out-of-range coercion.
Here `left` counts the comparisons still allowed after the current one
(`left = len - k`), so the loop below performs the same comparisons in the
same order as the source's `check` recursion and is structurally
recursive. -/
def resemblesChk (self obj : JSObj) (keys : List String) : Nat → Nat → Bool
  | k, 0 =>
    jsEq (getField self (keys.getD k "undefined"))
      (getField obj (keys.getD k "undefined"))
  | k, left + 1 =>
    if jsEq (getField self (keys.getD k "undefined"))
        (getField obj (keys.getD k "undefined")) then
      resemblesChk self obj keys (k + 1) left
    else false

/-- Determines if one object (self) is a subset of another object (obj):
the structural matcher of the source, including its extra trailing
comparison at the key "undefined". -/
def resembles (self obj : JSObj) : Bool :=
  resemblesChk self obj (objKeys self) 0 (objKeys self).length

/-- ToString of an array of node references, as String.prototype.concat
coerces its argument: Array.prototype.toString joins the elements'
string forms with ","; a node record is a plain object without a custom
toString, so each element stringifies to "[object Object]". -/
def jsStringifyNodeList (ids : List Nat) : String :=
  String.intercalate "," (ids.map (fun _ => "[object Object]"))

/-
RelationMutator.  `add(nodes, relation, relatedNodes)` runs
`node[relation] = node[relation].concat(relatedNodes)` over the nodes in
order (mutating in place and returning the same `nodes`).  On an array
field `.concat` appends; on a STRING field `.concat` also exists
(String.prototype.concat) and does not throw - it stores back the string
extended with the stringified related-node array; on any other field
value (undefined for a missing field, a number, a boolean) indexing
`.concat` raises a TypeError, modelled by Option.none.  A raised error
aborts the remaining iterations.
-/
def add (h : Heap) (nodes : List Nat) (relation : String) (relatedNodes : List Nat) :
    Option Heap :=
  match nodes with
  | [] => some h
  | n :: rest =>
    match getField (h n) relation with
    | Value.arr ids =>
      add (updateHeap h n (setField (h n) relation (Value.arr (ids ++ relatedNodes))))
        rest relation relatedNodes
    | Value.prim (Prim.str str0) =>
      add (updateHeap h n (setField (h n) relation
          (Value.prim (Prim.str (str0 ++ jsStringifyNodeList relatedNodes)))))
        rest relation relatedNodes
    | _ => Option.none

/-- Unfolding equation of `add` at a node with an array relation field. -/
theorem add_cons_arr (h : Heap) (n : Nat) (rest : List Nat) (rel : String)
    (X ids : List Nat) (hget : getField (h n) rel = Value.arr ids) :
    add h (n :: rest) rel X
      = add (updateHeap h n (setField (h n) rel (Value.arr (ids ++ X)))) rest rel X := by
  rw [add, hget]

/-- Unfolding equation of `add` at a node with a string relation field:
no TypeError, the field becomes a longer string. -/
theorem add_cons_str (h : Heap) (n : Nat) (rest : List Nat) (rel : String)
    (X : List Nat) (str0 : String)
    (hget : getField (h n) rel = Value.prim (Prim.str str0)) :
    add h (n :: rest) rel X
      = add (updateHeap h n (setField (h n) rel
          (Value.prim (Prim.str (str0 ++ jsStringifyNodeList X))))) rest rel X := by
  rw [add, hget]

/-- A relation-field value with no `.concat` (neither array nor string)
makes `add` raise a TypeError at the node that holds it. -/
theorem add_cons_fail (h : Heap) (n : Nat) (rest : List Nat) (rel : String)
    (X : List Nat) (hbad : canConcat (getField (h n) rel) = false) :
    add h (n :: rest) rel X = Option.none := by
  rw [add]
  cases hv : getField (h n) rel with
  | arr ids =>
    rw [hv] at hbad
    simp [canConcat, isArray] at hbad
  | prim p =>
    cases p with
    | str str0 =>
      rw [hv] at hbad
      simp [canConcat, isString] at hbad
    | undef => rfl
    | int i => rfl
    | bool b => rfl

/-- `Array.prototype.indexOf` with strict equality: the first index of x,
or -1 when x does not occur. -/
def jsIndexOf : List Nat → Nat → Int
  | [], _ => -1
  | y :: rest, x =>
    if y = x then 0
    else
      let i := jsIndexOf rest x
      if i < 0 then -1 else i + 1

/-- `Array.prototype.splice(start, 1)`: a negative start is clamped to
`max(length + start, 0)`, a nonnegative one to `min(start, length)`, and
one element is deleted there.  In particular `splice(-1, 1)` deletes the
LAST element of a nonempty array. -/
def jsSpliceStart (l : List Nat) (start : Int) : Nat :=
  (if start < 0 then max ((l.length : Int) + start) 0
    else min start (l.length : Int)).toNat

def jsSplice1 (l : List Nat) (start : Int) : List Nat :=
  l.take (jsSpliceStart l start) ++ l.drop (jsSpliceStart l start + 1)

/-- One source removal step: `l.splice(l.indexOf(x), 1)`. -/
def removeOne (l : List Nat) (x : Nat) : List Nat :=
  jsSplice1 l (jsIndexOf l x)

/-- The accumulated effect of the source's inner forEach on one relation
list: one splice per related node, in order. -/
def removePass (l : List Nat) (xs : List Nat) : List Nat :=
  xs.foldl removeOne l

/-- The inner forEach of `remove` on a single node record: for each
related node, `node[relation].splice(node[relation].indexOf(r), 1)`.
With no related nodes the relation field is never touched (so a missing
field raises nothing); otherwise `.splice` on a non-array field raises a
TypeError, modelled by Option.none. -/
def removeFromNode (o : JSObj) (relation : String) : List Nat → Option JSObj
  | [] => some o
  | x :: rest =>
    match getField o relation with
    | Value.arr ids =>
      removeFromNode (setField o relation (Value.arr (removeOne ids x))) relation rest
    | _ => Option.none

/-- `remove(nodes, relation, relatedNodes)`: for every node and every
related node, splice out the entry at `indexOf(relatedNode)` (mutating in
place and returning the same `nodes`). -/
def remove (h : Heap) (nodes : List Nat) (relation : String) (relatedNodes : List Nat) :
    Option Heap :=
  match nodes with
  | [] => some h
  | n :: rest =>
    match removeFromNode (h n) relation relatedNodes with
    | some o => remove (updateHeap h n o) rest relation relatedNodes
    | Option.none => Option.none

/-
RelationQuery (get).  The filter argument is an object (structural match
through `resembles`), a predicate function, or absent (`filter || {}`
turns an absent filter into the empty object).
-/
inductive JSFilter where
  | missing
  | structural (o : JSObj)
  | predicate (p : JSObj → Bool)

/-- The filterFn the source builds: a function value is used directly,
anything else goes through `resembles` (an absent filter as `{}`). -/
def filterFnOf : JSFilter → (JSObj → Bool)
  | JSFilter.missing => fun child => resembles [] child
  | JSFilter.structural o => fun child => resembles o child
  | JSFilter.predicate p => p

/-- `node[relation]` viewed as an array, or a TypeError (Option.none) when
the field holds anything else ­- `.filter` only exists on arrays. -/
def relListOf (h : Heap) (rel : String) (n : Nat) : Option (List Nat) :=
  match getField (h n) rel with
  | Value.arr ids => some ids
  | _ => Option.none

/-
One level of the inner recursive `get`.  The source's loop body is

    filtered = node[relation].filter(filterFn);
    filtered = filtered.concat(nextGen(node[relation], generations && generations - 1));

`filtered` is REASSIGNED at every iteration (not accumulated), so after
the loop only the value computed for the LAST node remains; the work for
the earlier nodes is still performed (so their TypeErrors still abort the
call) but its result is discarded.  An empty node list returns the
initial [].
-/
def getLevel (h : Heap) (rel : String) (f : JSObj → Bool)
    (next : List Nat → Option (List Nat)) : List Nat → Option (List Nat)
  | [] => some []
  | node :: rest =>
    match relListOf h rel node with
    | Option.none => Option.none
    | some rl =>
      match next rl with
      | Option.none => Option.none
      | some deeper =>
        match rest with
        | [] => some (rl.filter (fun i => f (h i)) ++ deeper)
        | _ :: _ => getLevel h rel f next rest

/-- The inner `get` for a finite generations bound g.  With g = 0 the
source's nextGen is `function () {return []}`; with g + 1 it recurses on
the raw relation list with bound `generations - 1`. -/
def getGo (h : Heap) (rel : String) (f : JSObj → Bool) : Nat → List Nat → Option (List Nat)
  | 0 => getLevel h rel f (fun _ => some [])
  | g + 1 => getLevel h rel f (getGo h rel f g)

/-- The inner `get` for an undefined generations bound: every level
recurses (`generations === undefined` keeps nextGen = get and the bound
stays undefined).  The source recursion terminates only when some level's
frontier is empty; `fuel` bounds the number of levels unrolled, and
Option.none at fuel 0 marks an unfinished unrolling, so a result that
holds for every sufficiently large fuel is the value of the (terminating)
unbounded call. -/
def getU (h : Heap) (rel : String) (f : JSObj → Bool) : Nat → List Nat → Option (List Nat)
  | 0 => fun _ => Option.none
  | fuel + 1 => getLevel h rel f (getU h rel f fuel)

/-
GraphHandle factory.  The module keeps two process-wide variables
lastParentsKey / lastChildrenKey (initially "parents" / "children");
`Graph(nodes, parentsKey, childrenKey)` overwrites them with any supplied
truthy names (`parentsKey || lastParentsKey`) and returns an object of six
closures.  Those closures read the PROCESS-WIDE variables at call time;
only the node list is captured per handle.
-/
structure GlobalKeys where
  lastParentsKey : String
  lastChildrenKey : String
deriving DecidableEq

/-- The initial values of the two module-level key variables. -/
def initialKeys : GlobalKeys := ⟨"parents", "children"⟩

/-- JavaScript `argument || currentDefault` on an optional string: an
omitted argument and the empty string are falsy. -/
def keyOr : Option String → String → String
  | Option.none, d => d
  | some s, d => if s = "" then d else s

/-- A handle: the bound node list (already normalized to an array; the
source's toNodes wraps a single bare node into a one-element array). -/
structure Handle where
  nodes : List Nat
deriving DecidableEq

/-- The Graph factory: updates the process-wide key defaults and returns
the handle together with the new global state. -/
def Graph (g : GlobalKeys) (nodes : List Nat)
    (parentsKey childrenKey : Option String) : Handle × GlobalKeys :=
  (⟨nodes⟩, ⟨keyOr parentsKey g.lastParentsKey, keyOr childrenKey g.lastChildrenKey⟩)

/-- `handle.parents(filter, generations)` with a finite generations
bound: `get(nodes, lastParentsKey, filter, generations)` where
lastParentsKey is read from the globals at call time. -/
def parentsOp (g : GlobalKeys) (h : Heap) (hd : Handle) (filter : JSFilter)
    (generations : Nat) : Option (List Nat) :=
  getGo h g.lastParentsKey (filterFnOf filter) generations hd.nodes

/-- `handle.children(filter, generations)` with a finite generations
bound. -/
def childrenOp (g : GlobalKeys) (h : Heap) (hd : Handle) (filter : JSFilter)
    (generations : Nat) : Option (List Nat) :=
  getGo h g.lastChildrenKey (filterFnOf filter) generations hd.nodes

/-- `handle.children(filter)` with the generations argument omitted,
unrolled to `fuel` levels (see getU). -/
def childrenOpU (g : GlobalKeys) (h : Heap) (hd : Handle) (filter : JSFilter)
    (fuel : Nat) : Option (List Nat) :=
  getU h g.lastChildrenKey (filterFnOf filter) fuel hd.nodes

/-- `handle.addParents(parents)`:
`add(nodes, lastParentsKey, add(toNodes(parents), lastChildrenKey, nodes))`
(the inner add runs first and returns the parents array). -/
def addParentsOp (g : GlobalKeys) (h : Heap) (hd : Handle) (parents : List Nat) :
    Option Heap :=
  match add h parents g.lastChildrenKey hd.nodes with
  | some h1 => add h1 hd.nodes g.lastParentsKey parents
  | Option.none => Option.none

/-- `handle.addChildren(children)`:
`add(nodes, lastChildrenKey, add(toNodes(children), lastParentsKey, nodes))`. -/
def addChildrenOp (g : GlobalKeys) (h : Heap) (hd : Handle) (children : List Nat) :
    Option Heap :=
  match add h children g.lastParentsKey hd.nodes with
  | some h1 => add h1 hd.nodes g.lastChildrenKey children
  | Option.none => Option.none

/-- `handle.removeParents(parents)`:
`remove(nodes, lastParentsKey, remove(toNodes(parents), lastChildrenKey, nodes))`. -/
def removeParentsOp (g : GlobalKeys) (h : Heap) (hd : Handle) (parents : List Nat) :
    Option Heap :=
  match remove h parents g.lastChildrenKey hd.nodes with
  | some h1 => remove h1 hd.nodes g.lastParentsKey parents
  | Option.none => Option.none

/-- `handle.removeChildren(children)`:
`remove(nodes, lastChildrenKey, remove(toNodes(children), lastParentsKey, nodes))`. -/
def removeChildrenOp (g : GlobalKeys) (h : Heap) (hd : Handle) (children : List Nat) :
    Option Heap :=
  match remove h children g.lastParentsKey hd.nodes with
  | some h1 => remove h1 hd.nodes g.lastChildrenKey children
  | Option.none => Option.none

/-
Concrete heaps used to evaluate the engine at specific inputs.
-/

/-- Two root nodes 0 and 1 with child lists [2] and [3]; every other node
has an empty child list. -/
def cHeapA : Heap := fun n =>
  if n = 0 then [("children", Value.arr [2])]
  else if n = 1 then [("children", Value.arr [3])]
  else [("children", Value.arr [])]

/-- C1: the spec says `get` concatenates, over the input nodes in input
order, each node's direct filtered matches (so [2, 3] here); the source
reassigns its accumulator on every loop iteration, so the call returns
only the last input node's matches [3], silently dropping node 0's
match. -/
theorem graphC1_get_drops_earlier_nodes :
    getGo cHeapA "children" (filterFnOf (JSFilter.predicate (fun _ => true))) 0 [0, 1]
        = some [3] ∧
      ([3] : List Nat) ≠ [2, 3] := by
  decide

/-- Node 0 has child list [2] and node 1 is nowhere related; all parents
lists are empty. -/
def cHeapB : Heap := fun n =>
  if n = 0 then [("parents", Value.arr []), ("children", Value.arr [2])]
  else [("parents", Value.arr []), ("children", Value.arr [])]

/-- C2: the spec says removing a relation that does not exist is a no-op
that leaves both nodes' relation lists unchanged; in the source
`indexOf` returns -1 for the absent entry and `splice(-1, 1)` deletes the
LAST element, so `removeChildren([1])` on the handle over node 0 empties
node 0's child list [2] instead of leaving it alone. -/
theorem graphC2_remove_absent_deletes_last :
    idsOf cHeapB "children" 0 = [2] ∧
      1 ∉ idsOf cHeapB "children" 0 ∧
      (removeChildrenOp initialKeys cHeapB ⟨[0]⟩ [1]).map
          (fun h2 => (idsOf h2 "children" 0, idsOf h2 "parents" 1))
        = some ([], []) := by
  decide

/-- A symmetric two-node graph: 2 is the only child of 0 and 0 the only
parent of 2; node 1 is unrelated to everything. -/
def cHeapS : Heap := fun n =>
  if n = 0 then [("parents", Value.arr []), ("children", Value.arr [2])]
  else if n = 2 then [("parents", Value.arr [0]), ("children", Value.arr [])]
  else [("parents", Value.arr []), ("children", Value.arr [])]

/-- C4: starting from a symmetric state (2 in 0's children, 0 in 2's
parents), `removeChildren([1])` on the handle over node 0 - node 1 is not
a child, so the spec calls every remove operation symmetry-preserving -
deletes the unrelated last entry 2 from node 0's child list while node
2's parents list still holds 0: the symmetry invariant is broken by the
engine's own remove operation. -/
theorem graphC4_remove_breaks_symmetry :
    idsOf cHeapS "children" 0 = [2] ∧
      idsOf cHeapS "parents" 2 = [0] ∧
      (removeChildrenOp initialKeys cHeapS ⟨[0]⟩ [1]).map
          (fun h2 => (idsOf h2 "children" 0, idsOf h2 "parents" 2))
        = some ([], [0]) := by
  decide

/-- C5 counterexample: the claim says the empty filter matches every
candidate, but the matcher's extra trailing comparison reads the key
"undefined" on both sides, so a candidate holding a field literally named
"undefined" with a defined value is rejected by the empty filter. -/
theorem graphC5_empty_filter_cex :
    resembles [] [("undefined", Value.prim (Prim.int 1))] = false ∧
      objKeys ([] : JSObj) = [] := by
  decide

/-- A heap of nodes with no fields at all. -/
def cHeapM : Heap := fun _ => []

/-- C9 counterexample: a TypeError-class fault is NOT exclusive to
addParents/addChildren - removeChildren on nodes whose relation fields
are missing also faults (`.splice` of undefined), refuting the claim's
"this is the only hard runtime fault of the engine". -/
theorem graphC9_remove_also_faults :
    (removeChildrenOp initialKeys cHeapM ⟨[0]⟩ [1]).isNone = true := by
  decide

/-- Node 0 carries relation lists under both key vocabularies: [1] under
"p" and [2] under "P2". -/
def cHeapK : Heap := fun n =>
  if n = 0 then [("p", Value.arr [1]), ("P2", Value.arr [2])]
  else []

/-- C3 counterexample: the claim says the key names a handle operates on
are fixed at its construction.  The same first handle (built with keys
"p"/"c") answers parents() with [1] before a later construction and with
[2] after a later handle is built with keys "P2"/"C2": the six closures
read the process-wide key variables at call time, so the later
construction changes the earlier handle's keys. -/
theorem graphC3_keys_not_fixed_cex :
    parentsOp (Graph initialKeys [0] (some "p") (some "c")).2 cHeapK
        (Graph initialKeys [0] (some "p") (some "c")).1
        (JSFilter.predicate (fun _ => true)) 0 = some [1] ∧
      parentsOp (Graph (Graph initialKeys [0] (some "p") (some "c")).2 [9]
            (some "P2") (some "C2")).2 cHeapK
          (Graph initialKeys [0] (some "p") (some "c")).1
          (JSFilter.predicate (fun _ => true)) 0 = some [2] ∧
      ([1] : List Nat) ≠ [2] := by
  decide

/-- C3 amended: the key names used by a handle's operations are the ones
in effect at CALL time - after any later construction supplies explicit
(nonempty) key names pk2/ck2, an earlier handle's parents/children
queries run against pk2/ck2, whatever keys were current when the earlier
handle was built. -/
theorem graphC3_keys_call_time (g : GlobalKeys) (n1 n2 : List Nat)
    (pk1 ck1 pk2 ck2 : String) (hp2 : pk2 ≠ "") (hc2 : ck2 ≠ "")
    (h : Heap) (filter : JSFilter) (gens : Nat) :
    parentsOp (Graph (Graph g n1 (some pk1) (some ck1)).2 n2 (some pk2) (some ck2)).2 h
        (Graph g n1 (some pk1) (some ck1)).1 filter gens
      = getGo h pk2 (filterFnOf filter) gens n1 ∧
    childrenOp (Graph (Graph g n1 (some pk1) (some ck1)).2 n2 (some pk2) (some ck2)).2 h
        (Graph g n1 (some pk1) (some ck1)).1 filter gens
      = getGo h ck2 (filterFnOf filter) gens n1 := by
  simp [Graph, keyOr, parentsOp, childrenOp, hp2, hc2]

/-- Witness for graphC3_keys_call_time at concrete keys "P2"/"C2". -/
theorem graphC3_keys_call_time_w :
    ("P2" : String) ≠ "" ∧ ("C2" : String) ≠ "" ∧
      parentsOp (Graph (Graph initialKeys [0] (some "p") (some "c")).2 [9]
            (some "P2") (some "C2")).2 cHeapK
          (Graph initialKeys [0] (some "p") (some "c")).1
          (JSFilter.predicate (fun _ => true)) 0
        = getGo cHeapK "P2" (filterFnOf (JSFilter.predicate (fun _ => true))) 0 [0] :=
  ⟨by decide, by decide,
    (graphC3_keys_call_time initialKeys [0] [9] "p" "c" "P2" "C2" (by decide) (by decide)
        cHeapK (JSFilter.predicate (fun _ => true)) 0).1⟩

/-- C8: key names supplied to one construction become the process-wide
default: a second handle constructed with no key names has globals
⟨pk, ck⟩ and its parents/children operations query exactly those keys. -/
theorem graphC8_default_persistence (g : GlobalKeys) (n1 n2 : List Nat)
    (pk ck : String) (hp : pk ≠ "") (hc : ck ≠ "")
    (h : Heap) (filter : JSFilter) (gens : Nat) :
    (Graph (Graph g n1 (some pk) (some ck)).2 n2 Option.none Option.none).2 = ⟨pk, ck⟩ ∧
    parentsOp (Graph (Graph g n1 (some pk) (some ck)).2 n2 Option.none Option.none).2 h
        (Graph (Graph g n1 (some pk) (some ck)).2 n2 Option.none Option.none).1 filter gens
      = getGo h pk (filterFnOf filter) gens n2 ∧
    childrenOp (Graph (Graph g n1 (some pk) (some ck)).2 n2 Option.none Option.none).2 h
        (Graph (Graph g n1 (some pk) (some ck)).2 n2 Option.none Option.none).1 filter gens
      = getGo h ck (filterFnOf filter) gens n2 := by
  simp [Graph, keyOr, parentsOp, childrenOp, hp, hc]

/-- Witness for graphC8_default_persistence at concrete keys "p"/"c". -/
theorem graphC8_default_persistence_w :
    ("p" : String) ≠ "" ∧ ("c" : String) ≠ "" ∧
      (Graph (Graph initialKeys [0] (some "p") (some "c")).2 [1]
          Option.none Option.none).2 = ⟨"p", "c"⟩ :=
  ⟨by decide, by decide,
    (graphC8_default_persistence initialKeys [0] [1] "p" "c" (by decide) (by decide)
        cHeapK JSFilter.missing 0).1⟩

/-- Unfolding equation for the check loop's last allowed comparison. -/
theorem resemblesChk_zero (self obj : JSObj) (keys : List String) (k : Nat) :
    resemblesChk self obj keys k 0 =
      jsEq (getField self (keys.getD k "undefined"))
        (getField obj (keys.getD k "undefined")) := rfl

/-- Unfolding equation for a non-final comparison of the check loop. -/
theorem resemblesChk_succ (self obj : JSObj) (keys : List String) (k left : Nat) :
    resemblesChk self obj keys k (left + 1) =
      if jsEq (getField self (keys.getD k "undefined"))
          (getField obj (keys.getD k "undefined")) then
        resemblesChk self obj keys (k + 1) left
      else false := rfl

/-- The check loop accepts from index k with `left` further comparisons
allowed iff every comparison at indices k .. k + left succeeds. -/
theorem resemblesChk_eq_true_iff (self obj : JSObj) (keys : List String) :
    ∀ (left k : Nat),
      resemblesChk self obj keys k left = true ↔
        ∀ j, k ≤ j → j ≤ k + left →
          jsEq (getField self (keys.getD j "undefined"))
              (getField obj (keys.getD j "undefined")) = true := by
  intro left
  induction left with
  | zero =>
    intro k
    rw [resemblesChk_zero]
    constructor
    · intro hc j hj1 hj2
      have hjk : j = k := by omega
      rw [hjk]
      exact hc
    · intro hall
      exact hall k le_rfl (by omega)
  | succ left ih =>
    intro k
    rw [resemblesChk_succ]
    by_cases c : jsEq (getField self (keys.getD k "undefined"))
        (getField obj (keys.getD k "undefined")) = true
    · rw [if_pos c, ih (k + 1)]
      constructor
      · intro hrec j hj1 hj2
        rcases Nat.eq_or_lt_of_le hj1 with hjk | hlt
        · rw [← hjk]
          exact c
        · exact hrec j hlt (by omega)
      · intro hall j hj1 hj2
        exact hall j (by omega) (by omega)
    · rw [if_neg c]
      constructor
      · intro hfalse
        exact absurd hfalse (by simp)
      · intro hall
        exact absurd (hall k le_rfl (by omega)) c

/-- Quantifying over the indices 0 .. length of a key list (with the
out-of-range default "undefined") is quantifying over the keys plus the
extra key "undefined". -/
theorem forall_getD_le_iff (keys : List String) (P : String → Prop) :
    (∀ j, j ≤ keys.length → P (keys.getD j "undefined")) ↔
      ((∀ x ∈ keys, P x) ∧ P "undefined") := by
  induction keys with
  | nil =>
    constructor
    · intro hall
      exact ⟨by intro x hx; exact absurd hx (List.not_mem_nil x), hall 0 (by omega)⟩
    · intro hall j hj
      have hj0 : j = 0 := by simpa using hj
      rw [hj0]
      exact hall.2
  | cons a as ih =>
    constructor
    · intro hall
      have htail : ∀ j, j ≤ as.length → P (as.getD j "undefined") := by
        intro j hj
        have := hall (j + 1) (by simpa using hj)
        simpa [List.getD_cons_succ] using this
      refine ⟨?_, (ih.1 htail).2⟩
      intro x hx
      rw [List.mem_cons] at hx
      rcases hx with hxa | hx
      · rw [hxa]
        simpa [List.getD_cons_zero] using hall 0 (by omega)
      · exact (ih.1 htail).1 x hx
    · rintro ⟨hmem, hu⟩ j hj
      cases j with
      | zero =>
        simpa [List.getD_cons_zero] using hmem a (by simp)
      | succ j =>
        have hj2 : j ≤ as.length := by simpa using hj
        have := ih.2 ⟨fun x hx => hmem x (List.mem_cons_of_mem a hx), hu⟩ j hj2
        simpa [List.getD_cons_succ] using this

/-- C5 amended: resembles accepts iff every key of the filter compares
strictly equal on both sides AND the extra trailing comparison at the key
"undefined" (the source's off-by-one walk past the last key) also
succeeds; the empty-filter case reduces to the "undefined" comparison
alone, so the empty filter does NOT match every candidate. -/
theorem graphC5_resembles_iff (self obj : JSObj) :
    resembles self obj = true ↔
      ((∀ k ∈ objKeys self, jsEq (getField self k) (getField obj k) = true) ∧
        jsEq (getField self "undefined") (getField obj "undefined") = true) := by
  unfold resembles
  rw [resemblesChk_eq_true_iff]
  rw [← forall_getD_le_iff (objKeys self)
    (fun s => jsEq (getField self s) (getField obj s) = true)]
  constructor
  · intro hall j hj
    exact hall j (Nat.zero_le j) (by omega)
  · intro hall j hj1 hj2
    exact hall j (by omega)

/-- The empty filter accepts any candidate whose "undefined" field reads
as undefined (the only comparison the empty-filter walk performs is the
trailing out-of-range one). -/
theorem resembles_nil (o : JSObj) (hu : getField o "undefined" = Value.prim Prim.undef) :
    resembles [] o = true := by
  have h0 : resembles [] o = jsEq (Value.prim Prim.undef) (getField o "undefined") := rfl
  rw [h0, hu]
  decide

/-- C6: on the chain a -> b -> c (child lists [b], [c], [] and no stray
"undefined" fields), children with the omitted (match-all) filter returns
[b] for generations = 0, [b, c] for generations = 1, and [b, c] for the
unspecified-generations call (its unrolling stabilizes at [b, c] from 4
levels of fuel on). -/
theorem graphC6_depth_bound (h : Heap) (a b c : Nat)
    (hac : getField (h a) "children" = Value.arr [b])
    (hbc : getField (h b) "children" = Value.arr [c])
    (hcc : getField (h c) "children" = Value.arr [])
    (hbu : getField (h b) "undefined" = Value.prim Prim.undef)
    (hcu : getField (h c) "undefined" = Value.prim Prim.undef) :
    childrenOp initialKeys h ⟨[a]⟩ JSFilter.missing 0 = some [b] ∧
      childrenOp initialKeys h ⟨[a]⟩ JSFilter.missing 1 = some [b, c] ∧
      ∀ fuel, 4 ≤ fuel → childrenOpU initialKeys h ⟨[a]⟩ JSFilter.missing fuel = some [b, c] := by
  have hfb : filterFnOf JSFilter.missing (h b) = true := resembles_nil (h b) hbu
  have hfc : filterFnOf JSFilter.missing (h c) = true := resembles_nil (h c) hcu
  refine ⟨?_, ?_, ?_⟩
  · simp [childrenOp, initialKeys, getGo, getLevel, relListOf, hac, hfb]
  · simp [childrenOp, initialKeys, getGo, getLevel, relListOf, hac, hbc, hfb, hfc]
  · intro fuel hfuel
    obtain ⟨n, hn⟩ : ∃ n, fuel = n + 4 := ⟨fuel - 4, by omega⟩
    rw [hn]
    show childrenOpU initialKeys h ⟨[a]⟩ JSFilter.missing (n + 4) = some [b, c]
    simp [childrenOpU, initialKeys, getU, getLevel, relListOf, hac, hbc, hcc, hfb, hfc]

/-- A concrete chain 0 -> 1 -> 2 of child links. -/
def cHeapC : Heap := fun n =>
  if n = 0 then [("children", Value.arr [1])]
  else if n = 1 then [("children", Value.arr [2])]
  else [("children", Value.arr [])]

/-- Witness for graphC6_depth_bound on the concrete chain 0 -> 1 -> 2. -/
theorem graphC6_depth_bound_w :
    getField (cHeapC 0) "children" = Value.arr [1] ∧
      getField (cHeapC 1) "children" = Value.arr [2] ∧
      getField (cHeapC 2) "children" = Value.arr [] ∧
      (childrenOp initialKeys cHeapC ⟨[0]⟩ JSFilter.missing 0 = some [1] ∧
        childrenOp initialKeys cHeapC ⟨[0]⟩ JSFilter.missing 1 = some [1, 2] ∧
        ∀ fuel, 4 ≤ fuel →
          childrenOpU initialKeys cHeapC ⟨[0]⟩ JSFilter.missing fuel = some [1, 2]) :=
  ⟨by decide, by decide, by decide,
    graphC6_depth_bound cHeapC 0 1 2 (by decide) (by decide) (by decide)
      (by decide) (by decide)⟩

/-- Writing a field and reading it back yields the written value. -/
theorem getField_setField_self (k : String) (v : Value) :
    ∀ (o : JSObj), getField (setField o k v) k = v := by
  intro o
  induction o with
  | nil => simp [setField, getField]
  | cons p rest ih =>
    obtain ⟨k1, v1⟩ := p
    by_cases hk : k1 = k
    · subst hk
      simp [setField, getField]
    · simp [setField, getField, hk, ih]

/-- Writing one field leaves every other field's value unchanged. -/
theorem getField_setField_ne (k k2 : String) (v : Value) (hne : k2 ≠ k) :
    ∀ (o : JSObj), getField (setField o k v) k2 = getField o k2 := by
  intro o
  have hne2 : ¬ (k = k2) := fun he => hne he.symm
  induction o with
  | nil => simp [setField, getField, hne2]
  | cons p rest ih =>
    obtain ⟨k1, v1⟩ := p
    by_cases hk : k1 = k
    · subst hk
      simp [setField, getField, hne2]
    · simp [setField, getField, hk, ih]

/-- A value is an array exactly when it is built from Value.arr. -/
theorem isArray_iff_exists (v : Value) :
    isArray v = true ↔ ∃ l, v = Value.arr l := by
  cases v with
  | prim p => simp [isArray]
  | arr l => simp [isArray]

/-- Characterization of a successful `add`: fields under other keys and
untouched nodes keep their values, every processed node had a
concat-bearing (array or string) relation field to begin with, and a
node whose relation field started as an array receives one copy of
relatedNodes appended per occurrence of the node in `nodes`. -/
theorem add_eq_some (rel : String) (X : List Nat) :
    ∀ (nodes : List Nat) (h h2 : Heap), add h nodes rel X = some h2 →
      (∀ m k, k ≠ rel → getField (h2 m) k = getField (h m) k) ∧
      (∀ m, m ∉ nodes → h2 m = h m) ∧
      (∀ m, m ∈ nodes → canConcat (getField (h m) rel) = true) ∧
      (∀ m l, getField (h m) rel = Value.arr l →
        getField (h2 m) rel
          = Value.arr (l ++ (List.replicate (nodes.count m) X).flatten)) := by
  intro nodes
  induction nodes with
  | nil =>
    intro h h2 hadd
    have hh : h = h2 := by simpa [add] using hadd
    subst hh
    refine ⟨fun m k _ => rfl, fun m _ => rfl, by simp, ?_⟩
    intro m l hl
    rw [hl]
    simp
  | cons n rest ih =>
    intro h h2 hadd
    cases hget : getField (h n) rel with
    | arr ids =>
      rw [add_cons_arr h n rest rel X ids hget] at hadd
      set h1 : Heap :=
        updateHeap h n (setField (h n) rel (Value.arr (ids ++ X))) with hh1
      obtain ⟨ih1, ih2, ih3, ih4⟩ := ih h1 h2 hadd
      have f2 : ∀ m, m ≠ n → h1 m = h m := by
        intro m hm
        simp [hh1, updateHeap, hm]
      have f1 : ∀ m k, k ≠ rel → getField (h1 m) k = getField (h m) k := by
        intro m k hk
        by_cases hm : m = n
        · subst hm
          simp [hh1, updateHeap, getField_setField_ne rel k _ hk]
        · rw [f2 m hm]
      have f3 : getField (h1 n) rel = Value.arr (ids ++ X) := by
        simp [hh1, updateHeap, getField_setField_self]
      refine ⟨?_, ?_, ?_, ?_⟩
      · intro m k hk
        rw [ih1 m k hk, f1 m k hk]
      · intro m hm
        have hmn : m ≠ n := fun he => hm (he ▸ List.mem_cons_self n rest)
        have hmr : m ∉ rest := fun he => hm (List.mem_cons_of_mem n he)
        rw [ih2 m hmr, f2 m hmn]
      · intro m hm
        by_cases hmn : m = n
        · subst hmn
          simp [hget, canConcat, isArray]
        · rcases List.mem_cons.1 hm with he | hmr
          · exact absurd he hmn
          · have hcc := ih3 m hmr
            rw [f2 m hmn] at hcc
            exact hcc
      · intro m l hl
        by_cases hmn : m = n
        · subst hmn
          rw [hget] at hl
          injection hl with hli
          subst hli
          rw [ih4 m (ids ++ X) f3]
          have hc : (m :: rest).count m = rest.count m + 1 := by
            simp
          rw [hc]
          simp [List.replicate_succ, List.append_assoc]
        · have hl1 : getField (h1 m) rel = Value.arr l := by
            rw [f2 m hmn]
            exact hl
          rw [ih4 m l hl1]
          have hc : (n :: rest).count m = rest.count m := by
            simp [List.count_cons, hmn]
          rw [hc]
    | prim p =>
      cases p with
      | str str0 =>
        rw [add_cons_str h n rest rel X str0 hget] at hadd
        set h1 : Heap :=
          updateHeap h n (setField (h n) rel
            (Value.prim (Prim.str (str0 ++ jsStringifyNodeList X)))) with hh1
        obtain ⟨ih1, ih2, ih3, ih4⟩ := ih h1 h2 hadd
        have f2 : ∀ m, m ≠ n → h1 m = h m := by
          intro m hm
          simp [hh1, updateHeap, hm]
        have f1 : ∀ m k, k ≠ rel → getField (h1 m) k = getField (h m) k := by
          intro m k hk
          by_cases hm : m = n
          · subst hm
            simp [hh1, updateHeap, getField_setField_ne rel k _ hk]
          · rw [f2 m hm]
        have f3 : getField (h1 n) rel
            = Value.prim (Prim.str (str0 ++ jsStringifyNodeList X)) := by
          simp [hh1, updateHeap, getField_setField_self]
        refine ⟨?_, ?_, ?_, ?_⟩
        · intro m k hk
          rw [ih1 m k hk, f1 m k hk]
        · intro m hm
          have hmn : m ≠ n := fun he => hm (he ▸ List.mem_cons_self n rest)
          have hmr : m ∉ rest := fun he => hm (List.mem_cons_of_mem n he)
          rw [ih2 m hmr, f2 m hmn]
        · intro m hm
          by_cases hmn : m = n
          · subst hmn
            simp [hget, canConcat, isString]
          · rcases List.mem_cons.1 hm with he | hmr
            · exact absurd he hmn
            · have hcc := ih3 m hmr
              rw [f2 m hmn] at hcc
              exact hcc
        · intro m l hl
          by_cases hmn : m = n
          · subst hmn
            rw [hget] at hl
            cases hl
          · have hl1 : getField (h1 m) rel = Value.arr l := by
              rw [f2 m hmn]
              exact hl
            rw [ih4 m l hl1]
            have hc : (n :: rest).count m = rest.count m := by
              simp [List.count_cons, hmn]
            rw [hc]
      | undef =>
        rw [add_cons_fail h n rest rel X (by simp [hget, canConcat, isArray, isString])]
          at hadd
        exact absurd hadd (by simp)
      | int i =>
        rw [add_cons_fail h n rest rel X (by simp [hget, canConcat, isArray, isString])]
          at hadd
        exact absurd hadd (by simp)
      | bool b =>
        rw [add_cons_fail h n rest rel X (by simp [hget, canConcat, isArray, isString])]
          at hadd
        exact absurd hadd (by simp)

/-- `add` succeeds whenever every node to be processed carries an array
relation field. -/
theorem add_isSome (rel : String) (X : List Nat) :
    ∀ (nodes : List Nat) (h : Heap),
      (∀ n ∈ nodes, isArray (getField (h n) rel) = true) →
      ∃ h2, add h nodes rel X = some h2 := by
  intro nodes
  induction nodes with
  | nil =>
    intro h _
    exact ⟨h, rfl⟩
  | cons n rest ih =>
    intro h hall
    obtain ⟨ids, hids⟩ := (isArray_iff_exists _).1 (hall n (List.mem_cons_self n rest))
    set h1 : Heap := updateHeap h n (setField (h n) rel (Value.arr (ids ++ X))) with hh1
    have hall1 : ∀ n2 ∈ rest, isArray (getField (h1 n2) rel) = true := by
      intro n2 hn2
      by_cases hm : n2 = n
      · subst hm
        simp [hh1, updateHeap, getField_setField_self, isArray]
      · simp [hh1, updateHeap, hm]
        exact hall n2 (List.mem_cons_of_mem n hn2)
    obtain ⟨h2, hh2⟩ := ih h1 hall1
    refine ⟨h2, ?_⟩
    rw [add, hids]
    exact hh2

/-- `add` raises a TypeError exactly when some node to be processed has
a relation field with no `.concat` - neither an array nor a string; in
particular a missing field, which reads as undefined. -/
theorem add_none_iff (rel : String) (X : List Nat) :
    ∀ (nodes : List Nat) (h : Heap),
      add h nodes rel X = Option.none ↔
        ∃ n ∈ nodes, canConcat (getField (h n) rel) = false := by
  intro nodes
  induction nodes with
  | nil =>
    intro h
    simp [add]
  | cons n rest ih =>
    intro h
    cases hget : getField (h n) rel with
    | arr ids =>
      rw [add_cons_arr h n rest rel X ids hget]
      set h1 : Heap := updateHeap h n (setField (h n) rel (Value.arr (ids ++ X))) with hh1
      have hsame : ∀ m, canConcat (getField (h1 m) rel) = canConcat (getField (h m) rel) := by
        intro m
        by_cases hm : m = n
        · subst hm
          simp [hh1, updateHeap, getField_setField_self, hget, canConcat, isArray]
        · simp [hh1, updateHeap, hm]
      rw [ih h1]
      constructor
      · rintro ⟨n2, hn2, hbad⟩
        exact ⟨n2, List.mem_cons_of_mem n hn2, (hsame n2) ▸ hbad⟩
      · rintro ⟨n2, hn2, hbad⟩
        rcases List.mem_cons.1 hn2 with he | hn2r
        · subst he
          rw [hget] at hbad
          simp [canConcat, isArray] at hbad
        · exact ⟨n2, hn2r, (hsame n2).symm ▸ hbad⟩
    | prim p =>
      cases p with
      | str str0 =>
        rw [add_cons_str h n rest rel X str0 hget]
        set h1 : Heap :=
          updateHeap h n (setField (h n) rel
            (Value.prim (Prim.str (str0 ++ jsStringifyNodeList X)))) with hh1
        have hsame : ∀ m, canConcat (getField (h1 m) rel) = canConcat (getField (h m) rel) := by
          intro m
          by_cases hm : m = n
          · subst hm
            simp [hh1, updateHeap, getField_setField_self, hget, canConcat, isString, isArray]
          · simp [hh1, updateHeap, hm]
        rw [ih h1]
        constructor
        · rintro ⟨n2, hn2, hbad⟩
          exact ⟨n2, List.mem_cons_of_mem n hn2, (hsame n2) ▸ hbad⟩
        · rintro ⟨n2, hn2, hbad⟩
          rcases List.mem_cons.1 hn2 with he | hn2r
          · subst he
            rw [hget] at hbad
            simp [canConcat, isString] at hbad
          · exact ⟨n2, hn2r, (hsame n2).symm ▸ hbad⟩
      | undef =>
        rw [add_cons_fail h n rest rel X (by simp [hget, canConcat, isArray, isString])]
        constructor
        · intro _
          exact ⟨n, List.mem_cons_self n rest, by simp [hget, canConcat, isArray, isString]⟩
        · intro _
          rfl
      | int i =>
        rw [add_cons_fail h n rest rel X (by simp [hget, canConcat, isArray, isString])]
        constructor
        · intro _
          exact ⟨n, List.mem_cons_self n rest, by simp [hget, canConcat, isArray, isString]⟩
        · intro _
          rfl
      | bool b =>
        rw [add_cons_fail h n rest rel X (by simp [hget, canConcat, isArray, isString])]
        constructor
        · intro _
          exact ⟨n, List.mem_cons_self n rest, by simp [hget, canConcat, isArray, isString]⟩
        · intro _
          rfl

/-- Characterization of a successful inner removal loop on one record:
other fields keep their values, and an array relation field undergoes one
splice per related node, in order. -/
theorem removeFromNode_eq_some (rel : String) :
    ∀ (xs : List Nat) (o o2 : JSObj), removeFromNode o rel xs = some o2 →
      (∀ k, k ≠ rel → getField o2 k = getField o k) ∧
      (∀ l, getField o rel = Value.arr l → getField o2 rel = Value.arr (removePass l xs)) ∧
      (xs = [] → o2 = o) := by
  intro xs
  induction xs with
  | nil =>
    intro o o2 hrm
    have ho : o = o2 := by simpa [removeFromNode] using hrm
    subst ho
    exact ⟨fun k _ => rfl, fun l hl => by simpa [removePass] using hl, fun _ => rfl⟩
  | cons x rest ih =>
    intro o o2 hrm
    rw [removeFromNode] at hrm
    cases hget : getField o rel with
    | prim p =>
      rw [hget] at hrm
      simp at hrm
    | arr ids =>
      rw [hget] at hrm
      set o1 : JSObj := setField o rel (Value.arr (removeOne ids x)) with ho1
      obtain ⟨ih1, ih2, _⟩ := ih o1 o2 hrm
      refine ⟨?_, ?_, ?_⟩
      · intro k hk
        rw [ih1 k hk, ho1, getField_setField_ne rel k _ hk]
      · intro l hl
        injection hl with hll
        subst hll
        have hl1 : getField o1 rel = Value.arr (removeOne ids x) := by
          rw [ho1]
          exact getField_setField_self rel _ o
        rw [ih2 (removeOne ids x) hl1]
        simp [removePass]
      · intro he
        cases he

/-- The inner removal loop succeeds when the relation field is an array
(or there is nothing to remove). -/
theorem removeFromNode_isSome (rel : String) :
    ∀ (xs : List Nat) (o : JSObj),
      (xs = [] ∨ isArray (getField o rel) = true) →
      ∃ o2, removeFromNode o rel xs = some o2 := by
  intro xs
  induction xs with
  | nil =>
    intro o _
    exact ⟨o, rfl⟩
  | cons x rest ih =>
    intro o harr
    rcases harr with he | harr
    · cases he
    · obtain ⟨ids, hids⟩ := (isArray_iff_exists _).1 harr
      set o1 : JSObj := setField o rel (Value.arr (removeOne ids x)) with ho1
      have h1 : isArray (getField o1 rel) = true := by
        rw [ho1, getField_setField_self]
        rfl
      obtain ⟨o2, ho2⟩ := ih o1 (Or.inr h1)
      refine ⟨o2, ?_⟩
      rw [removeFromNode, hids]
      exact ho2

/-- Characterization of a successful `remove`: fields under other keys
and untouched nodes keep their values, and each node's array relation
field undergoes one full splice pass per occurrence of the node in
`nodes`. -/
theorem remove_eq_some (rel : String) (X : List Nat) :
    ∀ (nodes : List Nat) (h h2 : Heap), remove h nodes rel X = some h2 →
      (∀ m k, k ≠ rel → getField (h2 m) k = getField (h m) k) ∧
      (∀ m, m ∉ nodes → h2 m = h m) ∧
      (∀ m l, getField (h m) rel = Value.arr l →
        getField (h2 m) rel = Value.arr ((fun t => removePass t X)^[nodes.count m] l)) := by
  intro nodes
  induction nodes with
  | nil =>
    intro h h2 hrm
    have hh : h = h2 := by simpa [remove] using hrm
    subst hh
    exact ⟨fun m k _ => rfl, fun m _ => rfl, fun m l hl => by simpa using hl⟩
  | cons n rest ih =>
    intro h h2 hrm
    rw [remove] at hrm
    cases hone : removeFromNode (h n) rel X with
    | none =>
      rw [hone] at hrm
      simp at hrm
    | some o =>
      rw [hone] at hrm
      obtain ⟨g1, g2, _⟩ := removeFromNode_eq_some rel X (h n) o hone
      set h1 : Heap := updateHeap h n o with hh1
      obtain ⟨ih1, ih2, ih3⟩ := ih h1 h2 hrm
      have f2 : ∀ m, m ≠ n → h1 m = h m := by
        intro m hm
        simp [hh1, updateHeap, hm]
      have f1 : ∀ m k, k ≠ rel → getField (h1 m) k = getField (h m) k := by
        intro m k hk
        by_cases hm : m = n
        · subst hm
          simp [hh1, updateHeap]
          exact g1 k hk
        · rw [f2 m hm]
      refine ⟨?_, ?_, ?_⟩
      · intro m k hk
        rw [ih1 m k hk, f1 m k hk]
      · intro m hm
        have hmn : m ≠ n := fun he => hm (he ▸ List.mem_cons_self n rest)
        have hmr : m ∉ rest := fun he => hm (List.mem_cons_of_mem n he)
        rw [ih2 m hmr, f2 m hmn]
      · intro m l hl
        by_cases hmn : m = n
        · subst hmn
          have ho : getField (h1 m) rel = Value.arr (removePass l X) := by
            have := g2 l hl
            simp [hh1, updateHeap]
            exact this
          rw [ih3 m (removePass l X) ho]
          have hc : (m :: rest).count m = rest.count m + 1 := by
            simp
          rw [hc, Function.iterate_succ_apply]
        · have hc : (n :: rest).count m = rest.count m := by
            simp [List.count_cons, hmn]
          have hl1 : getField (h1 m) rel = Value.arr l := by
            rw [f2 m hmn]
            exact hl
          rw [ih3 m l hl1, hc]

/-- `remove` succeeds whenever every node to be processed carries an
array relation field (or there is nothing to remove). -/
theorem remove_isSome (rel : String) (X : List Nat) :
    ∀ (nodes : List Nat) (h : Heap),
      (X = [] ∨ ∀ n ∈ nodes, isArray (getField (h n) rel) = true) →
      ∃ h2, remove h nodes rel X = some h2 := by
  intro nodes
  induction nodes with
  | nil =>
    intro h _
    exact ⟨h, rfl⟩
  | cons n rest ih =>
    intro h hall
    have hn : X = [] ∨ isArray (getField (h n) rel) = true := by
      rcases hall with he | hall
      · exact Or.inl he
      · exact Or.inr (hall n (List.mem_cons_self n rest))
    obtain ⟨o, ho⟩ := removeFromNode_isSome rel X (h n) hn
    obtain ⟨g1, g2, _⟩ := removeFromNode_eq_some rel X (h n) o ho
    set h1 : Heap := updateHeap h n o with hh1
    have hall1 : X = [] ∨ ∀ n2 ∈ rest, isArray (getField (h1 n2) rel) = true := by
      rcases hall with he | hall
      · exact Or.inl he
      · refine Or.inr ?_
        intro n2 hn2
        by_cases hm : n2 = n
        · subst hm
          obtain ⟨ids, hids⟩ := (isArray_iff_exists _).1 (hall n2 (List.mem_cons_self n2 rest))
          have := g2 ids hids
          simp [hh1, updateHeap, this, isArray]
        · simp [hh1, updateHeap, hm]
          exact hall n2 (List.mem_cons_of_mem n hn2)
    obtain ⟨h2, hh2⟩ := ih h1 hall1
    refine ⟨h2, ?_⟩
    rw [remove, ho]
    exact hh2

/-- C10: a successful add or remove with relation key K changes, on every
node, only the field named K; nodes outside the first argument list are
untouched entirely (hence in particular nodes mentioned in neither
argument). -/
theorem graphC10_frame (nodes X : List Nat) (K : String) (h ha hr : Heap)
    (hadd : add h nodes K X = some ha) (hrem : remove h nodes K X = some hr) :
    (∀ m k, k ≠ K → getField (ha m) k = getField (h m) k) ∧
    (∀ m k, k ≠ K → getField (hr m) k = getField (h m) k) ∧
    (∀ m, m ∉ nodes → ha m = h m ∧ hr m = h m) := by
  obtain ⟨a1, a2, _, _⟩ := add_eq_some K X nodes h ha hadd
  obtain ⟨r1, r2, _⟩ := remove_eq_some K X nodes h hr hrem
  exact ⟨a1, r1, fun m hm => ⟨a2 m hm, r2 m hm⟩⟩

/-- A one-node heap whose only field is the relation list [5, 1]. -/
def wH10 : Heap := fun _ => [("K", Value.arr [5, 1])]

/-- The heap after add wH10 [0] "K" [1]. -/
def wHa10 : Heap :=
  updateHeap wH10 0 (setField (wH10 0) "K" (Value.arr ([5, 1] ++ [1])))

/-- The heap after remove wH10 [0] "K" [1]. -/
def wHr10 : Heap :=
  updateHeap wH10 0 (setField (wH10 0) "K" (Value.arr (removeOne [5, 1] 1)))

/-- Witness for graphC10_frame on the one-node heap. -/
theorem graphC10_frame_w :
    (∀ m k, k ≠ "K" → getField (wHa10 m) k = getField (wH10 m) k) ∧
    (∀ m k, k ≠ "K" → getField (wHr10 m) k = getField (wH10 m) k) ∧
    (∀ m, m ∉ ([0] : List Nat) → wHa10 m = wH10 m ∧ wHr10 m = wH10 m) :=
  graphC10_frame [0] [1] "K" wH10 wHa10 wHr10 rfl rfl

/-- The symmetric double add of addParents/addChildren fails exactly
when some supplied node's field under the inner key, or some bound
node's field under the outer key, has no `.concat` (neither array nor
string). -/
theorem addTwice_none_iff (pk ck : String) (hkc : ck ≠ pk) (h : Heap)
    (nodes X : List Nat) :
    (match add h X pk nodes with
      | some h1 => add h1 nodes ck X
      | Option.none => Option.none) = Option.none ↔
      ((∃ x ∈ X, canConcat (getField (h x) pk) = false) ∨
        (∃ a ∈ nodes, canConcat (getField (h a) ck) = false)) := by
  cases hinner : add h X pk nodes with
  | none =>
    constructor
    · intro _
      exact Or.inl ((add_none_iff pk nodes X h).1 hinner)
    · intro _
      rfl
  | some h1 =>
    obtain ⟨a1, _, a3, _⟩ := add_eq_some pk nodes X h h1 hinner
    have hsame : ∀ a, getField (h1 a) ck = getField (h a) ck := fun a => a1 a ck hkc
    rw [add_none_iff ck X nodes h1]
    constructor
    · rintro ⟨a, ha, hbad⟩
      exact Or.inr ⟨a, ha, (hsame a) ▸ hbad⟩
    · rintro (⟨x, hx, hbad⟩ | ⟨a, ha, hbad⟩)
      · have hgood := a3 x hx
        rw [hgood] at hbad
        simp at hbad
      · exact ⟨a, ha, (hsame a).symm ▸ hbad⟩

/-- C9 amended: with distinct parent/child key names, addChildren (and
symmetrically addParents) raises a TypeError-class fault IFF some
supplied value's relation field under the opposite key, or some bound
node's relation field under its own key, holds a value with no `.concat`
method - neither an array nor a string.  A missing field reads as
undefined and so faults at the concat that indexes it; a string-valued
field does NOT fault (String.prototype.concat exists, the relation list
silently becomes a string).  This kind of fault is also not exclusive to
the add operations. -/
theorem graphC9_add_missing_field_iff (g : GlobalKeys)
    (hk : g.lastParentsKey ≠ g.lastChildrenKey) (h : Heap) (nodes X : List Nat) :
    (addChildrenOp g h ⟨nodes⟩ X = Option.none ↔
       ((∃ x ∈ X, canConcat (getField (h x) g.lastParentsKey) = false) ∨
         (∃ a ∈ nodes, canConcat (getField (h a) g.lastChildrenKey) = false))) ∧
    (addParentsOp g h ⟨nodes⟩ X = Option.none ↔
       ((∃ x ∈ X, canConcat (getField (h x) g.lastChildrenKey) = false) ∨
         (∃ a ∈ nodes, canConcat (getField (h a) g.lastParentsKey) = false))) := by
  have hck : g.lastChildrenKey ≠ g.lastParentsKey := fun he => hk he.symm
  exact ⟨addTwice_none_iff g.lastParentsKey g.lastChildrenKey hck h nodes X,
    addTwice_none_iff g.lastChildrenKey g.lastParentsKey hk h nodes X⟩

/-- Witness for graphC9_add_missing_field_iff over the field-less heap. -/
theorem graphC9_add_missing_field_iff_w :
    initialKeys.lastParentsKey ≠ initialKeys.lastChildrenKey ∧
      ((addChildrenOp initialKeys cHeapM ⟨[0]⟩ [1] = Option.none ↔
         ((∃ x ∈ [1], canConcat (getField (cHeapM x) initialKeys.lastParentsKey) = false) ∨
           (∃ a ∈ [0], canConcat (getField (cHeapM a) initialKeys.lastChildrenKey) = false))) ∧
       (addParentsOp initialKeys cHeapM ⟨[0]⟩ [1] = Option.none ↔
         ((∃ x ∈ [1], canConcat (getField (cHeapM x) initialKeys.lastChildrenKey) = false) ∨
           (∃ a ∈ [0], canConcat (getField (cHeapM a) initialKeys.lastParentsKey) = false)))) :=
  ⟨by decide, graphC9_add_missing_field_iff initialKeys (by decide) cHeapM [0] [1]⟩

/-- Evidence for the string edge of the fault condition: `add` on a node
whose relation field holds the string "s" does not fault - the field
becomes "s" extended with the stringified related-node array. -/
theorem add_string_field_no_fault :
    (add (fun _ => [("children", Value.prim (Prim.str "s"))]) [0] "children" [1, 2]).map
        (fun h2 => getField (h2 0) "children")
      = some (Value.prim (Prim.str "s[object Object],[object Object]")) := by
  decide

/-- indexOf misses on a list not containing the key. -/
theorem jsIndexOf_of_not_mem (x : Nat) :
    ∀ (l : List Nat), x ∉ l → jsIndexOf l x = -1 := by
  intro l
  induction l with
  | nil =>
    intro _
    rfl
  | cons y rest ih =>
    intro hmem
    have hxy : ¬ (y = x) := fun he => hmem (he ▸ List.mem_cons_self y rest)
    have hxr : x ∉ rest := fun hr => hmem (List.mem_cons_of_mem y hr)
    simp [jsIndexOf, hxy, ih hxr]

/-- indexOf finds the first occurrence. -/
theorem jsIndexOf_append_cons (x : Nat) (l2 : List Nat) :
    ∀ (l1 : List Nat), x ∉ l1 →
      jsIndexOf (l1 ++ x :: l2) x = (l1.length : Int) := by
  intro l1
  induction l1 with
  | nil =>
    intro _
    simp [jsIndexOf]
  | cons y r ih =>
    intro hmem
    have hxy : ¬ (y = x) := fun he => hmem (he ▸ List.mem_cons_self y r)
    have hxr : x ∉ r := fun hr => hmem (List.mem_cons_of_mem y hr)
    rw [List.cons_append, jsIndexOf]
    rw [if_neg hxy]
    simp only [ih hxr]
    rw [if_neg (by omega)]
    simp only [List.length_cons]
    omega

/-- splice at a valid nonnegative index keeps the prefix and drops one
element. -/
theorem jsSplice1_nonneg (l : List Nat) (i : Nat) (hi : i ≤ l.length) :
    jsSplice1 l (i : Int) = l.take i ++ l.drop (i + 1) := by
  have hs : jsSpliceStart l (i : Int) = i := by
    unfold jsSpliceStart
    rw [if_neg (by omega)]
    omega
  unfold jsSplice1
  rw [hs]

/-- Removing a value whose first occurrence follows a prefix free of it
deletes exactly that occurrence. -/
theorem removeOne_append (x : Nat) (l1 l2 : List Nat) (hmem : x ∉ l1) :
    removeOne (l1 ++ x :: l2) x = l1 ++ l2 := by
  unfold removeOne
  rw [jsIndexOf_append_cons x l2 l1 hmem]
  rw [jsSplice1_nonneg _ _ (by simp)]
  have ht : (l1 ++ x :: l2).take l1.length = l1 := List.take_left l1 (x :: l2)
  have hd : (l1 ++ x :: l2).drop (l1.length + 1) = l2 := by
    have he : l1 ++ x :: l2 = (l1 ++ [x]) ++ l2 := by simp
    have hlen : l1.length + 1 = (l1 ++ [x]).length := by simp
    rw [he, hlen]
    exact List.drop_left (l1 ++ [x]) l2
  rw [ht, hd]

/-- One full splice pass over relatedNodes A cancels one appended copy of
A when the prefix contains none of A's entries. -/
theorem removePass_cancel :
    ∀ (A orig T : List Nat), (∀ a ∈ A, a ∉ orig) →
      removePass (orig ++ (A ++ T)) A = orig ++ T := by
  intro A
  induction A with
  | nil =>
    intro orig T _
    simp [removePass]
  | cons a A2 ih =>
    intro orig T hdisj
    have h1 : a ∉ orig := hdisj a (List.mem_cons_self a A2)
    have h2 : ∀ b ∈ A2, b ∉ orig := fun b hb => hdisj b (List.mem_cons_of_mem a hb)
    have hX : orig ++ ((a :: A2) ++ T) = orig ++ a :: (A2 ++ T) := by simp
    rw [hX]
    show removePass (removeOne (orig ++ a :: (A2 ++ T)) a) A2 = orig ++ T
    rw [removeOne_append a orig (A2 ++ T) h1]
    exact ih orig T h2

/-- k splice passes cancel k appended copies of A. -/
theorem removePass_iterate_cancel (A orig : List Nat)
    (hdisj : ∀ a ∈ A, a ∉ orig) :
    ∀ k, (fun t => removePass t A)^[k] (orig ++ (List.replicate k A).flatten) = orig := by
  intro k
  induction k with
  | zero => simp
  | succ k ih =>
    have h1 : (List.replicate (k + 1) A).flatten = A ++ (List.replicate k A).flatten := by
      simp [List.replicate_succ]
    rw [Function.iterate_succ_apply, h1]
    show (fun t => removePass t A)^[k]
        (removePass (orig ++ (A ++ (List.replicate k A).flatten)) A) = orig
    rw [removePass_cancel A orig _ hdisj]
    exact ih

/-- The double add of addChildren followed by the double remove of
removeChildren restores every field of every node, provided the two keys
are distinct, all touched relation fields are arrays, and no removed
relation pre-existed. -/
theorem roundtrip_generic (pk ck : String) (hk : pk ≠ ck) (h : Heap)
    (A X : List Nat)
    (hA : ∀ a ∈ A, isArray (getField (h a) ck) = true)
    (hX : ∀ x ∈ X, isArray (getField (h x) pk) = true)
    (hpre1 : ∀ x ∈ X, ∀ a ∈ A, a ∉ idsOf h pk x)
    (hpre2 : ∀ a ∈ A, ∀ x ∈ X, x ∉ idsOf h ck a) :
    ∃ h1 h2,
      (match add h X pk A with
        | some hh => add hh A ck X
        | Option.none => Option.none) = some h1 ∧
      (match remove h1 X pk A with
        | some hh => remove hh A ck X
        | Option.none => Option.none) = some h2 ∧
      ∀ m key, getField (h2 m) key = getField (h m) key := by
  have hkc : ck ≠ pk := fun he => hk he.symm
  obtain ⟨ha, hadd1⟩ := add_isSome pk A X h hX
  obtain ⟨a11, a12, a13, a14⟩ := add_eq_some pk A X h ha hadd1
  have hAa : ∀ a ∈ A, isArray (getField (ha a) ck) = true := by
    intro a haA
    rw [a11 a ck hkc]
    exact hA a haA
  obtain ⟨hb, hadd2⟩ := add_isSome ck X A ha hAa
  obtain ⟨a21, a22, a23, a24⟩ := add_eq_some ck X A ha hb hadd2
  have hXb : ∀ x ∈ X, isArray (getField (hb x) pk) = true := by
    intro x hx
    obtain ⟨l, hl⟩ := (isArray_iff_exists _).1 (hX x hx)
    rw [a21 x pk hk, a14 x l hl]
    rfl
  obtain ⟨hc, hrem1⟩ := remove_isSome pk A X hb (Or.inr hXb)
  obtain ⟨r11, r12, r13⟩ := remove_eq_some pk A X hb hc hrem1
  have hAc : ∀ a ∈ A, isArray (getField (hc a) ck) = true := by
    intro a haA
    obtain ⟨l, hl⟩ := (isArray_iff_exists _).1 (hA a haA)
    have hal : getField (ha a) ck = Value.arr l := by
      rw [a11 a ck hkc]
      exact hl
    rw [r11 a ck hkc, a24 a l hal]
    rfl
  obtain ⟨hd, hrem2⟩ := remove_isSome ck X A hc (Or.inr hAc)
  obtain ⟨r21, r22, r23⟩ := remove_eq_some ck X A hc hd hrem2
  refine ⟨hb, hd, ?_, ?_, ?_⟩
  · rw [hadd1]
    exact hadd2
  · rw [hrem1]
    exact hrem2
  · intro m key
    by_cases hkey1 : key = pk
    · subst hkey1
      rw [r21 m key hk]
      by_cases hmX : m ∈ X
      · obtain ⟨l, hl⟩ := (isArray_iff_exists _).1 (hX m hmX)
        have hdisj : ∀ a ∈ A, a ∉ l := by
          intro a haA
          have hi : idsOf h key m = l := by simp [idsOf, hl]
          have hni := hpre1 m hmX a haA
          rw [hi] at hni
          exact hni
        have hbf : getField (hb m) key
            = Value.arr (l ++ (List.replicate (X.count m) A).flatten) := by
          rw [a21 m key hk]
          exact a14 m l hl
        rw [r13 m _ hbf, removePass_iterate_cancel A l hdisj (X.count m), hl]
      · rw [r12 m hmX, a21 m key hk, a12 m hmX]
    · by_cases hkey2 : key = ck
      · subst hkey2
        by_cases hmA : m ∈ A
        · obtain ⟨l, hl⟩ := (isArray_iff_exists _).1 (hA m hmA)
          have hdisj : ∀ x ∈ X, x ∉ l := by
            intro x hx
            have hi : idsOf h key m = l := by simp [idsOf, hl]
            have hni := hpre2 m hmA x hx
            rw [hi] at hni
            exact hni
          have hal : getField (ha m) key = Value.arr l := by
            rw [a11 m key hkc]
            exact hl
          have hcf : getField (hc m) key
              = Value.arr (l ++ (List.replicate (A.count m) X).flatten) := by
            rw [r11 m key hkc]
            exact a24 m l hal
          rw [r23 m _ hcf, removePass_iterate_cancel X l hdisj (A.count m), hl]
        · rw [r22 m hmA, r11 m key hkc, a22 m hmA, a11 m key hkc]
      · rw [r21 m key hkey2, r11 m key hkey1, a21 m key hkey2, a11 m key hkey1]

/-- C7: addChildren(X) then removeChildren(X) on a handle is a round
trip: when the two key names differ, all touched relation fields are
arrays, and X held no pre-existing relation to the bound set in either
direction, both calls succeed and every field of every node (in
particular every parents and children list, content and order) is back to
its pre-call value. -/
theorem graphC7_roundtrip (g : GlobalKeys)
    (hk : g.lastParentsKey ≠ g.lastChildrenKey) (h : Heap) (A X : List Nat)
    (hA : ∀ a ∈ A, isArray (getField (h a) g.lastChildrenKey) = true)
    (hX : ∀ x ∈ X, isArray (getField (h x) g.lastParentsKey) = true)
    (hpre1 : ∀ x ∈ X, ∀ a ∈ A, a ∉ idsOf h g.lastParentsKey x)
    (hpre2 : ∀ a ∈ A, ∀ x ∈ X, x ∉ idsOf h g.lastChildrenKey a) :
    ∃ h1 h2, addChildrenOp g h ⟨A⟩ X = some h1 ∧
      removeChildrenOp g h1 ⟨A⟩ X = some h2 ∧
      ∀ m key, getField (h2 m) key = getField (h m) key := by
  obtain ⟨h1, h2, hc1, hc2, heq⟩ :=
    roundtrip_generic g.lastParentsKey g.lastChildrenKey hk h A X hA hX hpre1 hpre2
  exact ⟨h1, h2, hc1, hc2, heq⟩

/-- A two-node heap with empty parents and children lists. -/
def wH7 : Heap := fun _ => [("parents", Value.arr []), ("children", Value.arr [])]

/-- Witness for graphC7_roundtrip: node 1 becomes and stops being a child
of node 0. -/
theorem graphC7_roundtrip_w :
    initialKeys.lastParentsKey ≠ initialKeys.lastChildrenKey ∧
      ∃ h1 h2, addChildrenOp initialKeys wH7 ⟨[0]⟩ [1] = some h1 ∧
        removeChildrenOp initialKeys h1 ⟨[0]⟩ [1] = some h2 ∧
        ∀ m key, getField (h2 m) key = getField (wH7 m) key :=
  ⟨by decide,
    graphC7_roundtrip initialKeys (by decide) wH7 [0] [1]
      (by decide) (by decide) (by decide) (by decide)⟩
